import Mathlib

/-!
Verification of the locally implemented OLS and robust-standard-error
routines of pymer4 (`pymer4/utils.py`) and of the coefficient-table
post-processing of `Lmer.fit` (`pymer4/models/Lmer.py`).

Numpy floating-point values are modelled as rationals.  Calls into
external libraries are modelled as explicit parameters: `pinv` and
`pinv2` arguments stand for the `np.linalg.pinv` routine at the two
shapes it is used with, and a function `sq : ℚ → ℚ` stands for
`np.sqrt`.  None of the verified properties depends on any property of
those library routines, so they are universally quantified.
-/

namespace Pymer4

open Matrix

/-- Python exceptions raised by the code under study: the `assert` at the
top of `_robust_estimator` raises `AssertionError`, the missing-cluster
check raises `ValueError`, and the Python int true-divisions
`num_grps / (num_grps - 1)` and `X.shape[0] / (X.shape[0] - X.shape[1])`
of the cluster branch raise `ZeroDivisionError` when their denominator
is zero. -/
inductive PyError where
  | assertionError : String → PyError
  | valueError : String → PyError
  | zeroDivisionError : PyError
  deriving DecidableEq

/-- True exactly when a call ended with the Python `assert` failing. -/
def isAssertionFailure {α : Type} : Except PyError α → Bool
  | .error (.assertionError _) => true
  | _ => false

/-- True exactly when a call returned normally (no exception). -/
def isOkResult {α : Type} : Except PyError α → Bool
  | .ok _ => true
  | _ => false

/-- The message of the `assert` at the top of `_robust_estimator`. -/
def robustAssertMsg : String :=
  "robust_estimator must be one of hc0, hc1, hc2, hc3, hac, or cluster"

/-- The estimator names accepted by the `assert` in `_robust_estimator`
(`utils.py` lines 103-110). -/
def allowedEstimators : List String :=
  ["hc0", "hc1", "hc2", "hc3", "hac", "cluster"]

variable {n p : ℕ}

/-- Cluster-robust meat matrix of `_robust_estimator` (`utils.py` lines
120-135): scale residuals into the design, sum the rows within each
cluster id with the pandas groupby, and form the scaled cross product.
The groupby-sum only enters through the order-independent cross product,
so the pandas group ordering is irrelevant.  The scalar prefactors are
Python int true-divisions that raise `ZeroDivisionError` when there is a
single cluster group or `n = p`; `robustEstimator` guards this meat with
exactly that condition, so the total rational divisions here are only
reached where they agree with the Python values. -/
def clusterMeat (vals : Fin n → ℚ) (X : Matrix (Fin n) (Fin p) ℚ)
    (c : Fin n → ℤ) : Matrix (Fin p) (Fin p) ℚ :=
  let u : Matrix (Fin n) (Fin p) ℚ := Matrix.of fun i j => vals i * X i j
  let groups : Finset ℤ := Finset.image c Finset.univ
  let uClust : ℤ → Fin p → ℚ :=
    fun g j => ∑ i ∈ Finset.univ.filter (fun i => c i = g), u i j
  let numGrps : ℕ := groups.card
  Matrix.of fun k1 k2 =>
    ((numGrps : ℚ) / ((numGrps : ℚ) - 1)) * ((n : ℚ) / ((n : ℚ) - (p : ℚ))) *
      ∑ g ∈ groups, uClust g k1 * uClust g k2

/-- Newey-West (hac) meat matrix of `_robust_estimator` (`utils.py` lines
138-152): Bartlett-weighted sum of the lag-0 term and the symmetrised
lagged cross products.  The weight at lag `l` is `1 - l/(nLags+1)`, so
the lag-0 weight is 1. -/
def hacMeat (vals : Fin n → ℚ) (X : Matrix (Fin n) (Fin p) ℚ)
    (nLags : ℕ) : Matrix (Fin p) (Fin p) ℚ :=
  Matrix.of fun k1 k2 =>
    (∑ i, vals i ^ 2 * X i k1 * X i k2) +
      ∑ l ∈ Finset.Icc 1 nLags,
        (1 - (l : ℚ) / ((nLags : ℚ) + 1)) *
          ∑ i : Fin n,
            if h : i.val + l < n then
              vals ⟨i.val + l, h⟩ * vals i *
                (X ⟨i.val + l, h⟩ k1 * X i k2 + X i k1 * X ⟨i.val + l, h⟩ k2)
            else 0

/-- Diagonal of the hat matrix `X · bread · Xᵀ`, the leverage values used
by the hc2 and hc3 weightings. -/
def leverage (bread : Matrix (Fin p) (Fin p) ℚ)
    (X : Matrix (Fin n) (Fin p) ℚ) : Fin n → ℚ :=
  fun i => (X * bread * Xᵀ) i i

/-- Shallow embedding of `_robust_estimator` (`utils.py` lines 81-178).
`sq` models `np.sqrt`; `pinv2` models `np.linalg.pinv` on `p × p`
matrices, so `bread = pinv2 (Xᵀ * X)` is the code's
`np.linalg.pinv(np.dot(X.T, X))`.  The numpy broadcast `V / (1 - lev)`
divides column `j` of `V` by `1 - lev j`.  In the cluster branch the
scalar prefactors `num_grps / (num_grps - 1)` and
`X.shape[0] / (X.shape[0] - X.shape[1])` are Python int true-divisions,
which raise `ZeroDivisionError` exactly when the cluster ids take a
single distinct value or `n = p`; the guard below models that.  The
remaining divisions in the hc branches act on numpy arrays, which warn
and produce inf/nan instead of raising, so they stay total. -/
def robustEstimator (sq : ℚ → ℚ)
    (pinv2 : Matrix (Fin p) (Fin p) ℚ → Matrix (Fin p) (Fin p) ℚ)
    (vals : Fin n → ℚ) (X : Matrix (Fin n) (Fin p) ℚ)
    (robust_estimator : String) (nLags : ℕ)
    (cluster : Option (Fin n → ℤ)) : Except PyError (Fin p → ℚ) :=
  if robust_estimator ∈ allowedEstimators then
    let bread : Matrix (Fin p) (Fin p) ℚ := pinv2 (Xᵀ * X)
    if robust_estimator = "cluster" then
      match cluster with
      | none => .error (.valueError ("data column identifying clusters must be provided"))
      | some c =>
        if (Finset.image c Finset.univ).card = 1 ∨ n = p then
          .error .zeroDivisionError
        else
          let meat := clusterMeat vals X c
          .ok fun j => sq ((bread * meat * bread) j j)
    else if robust_estimator = "hac" then
      let meat := hacMeat vals X nLags
      .ok fun j => sq ((bread * meat * bread) j j)
    else
      let V0 : Matrix (Fin n) (Fin n) ℚ := Matrix.diagonal fun i => vals i ^ 2
      let V : Matrix (Fin n) (Fin n) ℚ :=
        if robust_estimator = "hc0" then V0
        else if robust_estimator = "hc1" then
          ((n : ℚ) / ((n : ℚ) - (p : ℚ))) • V0
        else if robust_estimator = "hc2" then
          Matrix.of fun i j => V0 i j / (1 - leverage bread X j)
        else if robust_estimator = "hc3" then
          Matrix.of fun i j => V0 i j / (1 - leverage bread X j) ^ 2
        else V0
      let meat := Xᵀ * V * X
      .ok fun j => sq ((bread * meat * bread) j j)
  else .error (.assertionError robustAssertMsg)

/-- Whitening of `_whiten_wls` (`utils.py` lines 181-198) applied to a
2-d design matrix: each row is scaled by the square root of its weight
(`np.sqrt(weights)[:, None] * mat`).  With `weights = none` the design
is returned unchanged, matching the `weights is None` branch of `_ols`.
The length-mismatch `ValueError` cannot arise here because the index
types agree. -/
def whitenX (sq : ℚ → ℚ) (weights : Option (Fin n → ℚ))
    (x : Matrix (Fin n) (Fin p) ℚ) : Matrix (Fin n) (Fin p) ℚ :=
  match weights with
  | none => x
  | some w => Matrix.of fun i j => sq (w i) * x i j

/-- Whitening of `_whiten_wls` applied to the 1-d response
(`mat * np.sqrt(weights)`). -/
def whitenY (sq : ℚ → ℚ) (weights : Option (Fin n → ℚ))
    (y : Fin n → ℚ) : Fin n → ℚ :=
  match weights with
  | none => y
  | some w => fun i => y i * sq (w i)

/-- Shallow embedding of the `all_stats=True` path of `_ols` (`utils.py`
lines 201-235), returning `(b, se, t, res)`.  `pinv` models
`np.linalg.pinv` on `n × p` matrices, so `pinv X` is the code's
`np.linalg.pinv(X)` for the (optionally whitened) design `X`; `pinv2`
models it on the `p × p` matrix `Xᵀ * X`.  In the non-robust branch
`sigma = sq (res·res / (n - p))` and `se i = sq (pinv2 (XᵀX) i i) * sigma`,
exactly the code's expressions with `sq` for `np.sqrt`. -/
def olsAllStats (sq : ℚ → ℚ)
    (pinv : Matrix (Fin n) (Fin p) ℚ → Matrix (Fin p) (Fin n) ℚ)
    (pinv2 : Matrix (Fin p) (Fin p) ℚ → Matrix (Fin p) (Fin p) ℚ)
    (x : Matrix (Fin n) (Fin p) ℚ) (y : Fin n → ℚ)
    (robust : Option String) (nLags : ℕ) (cluster : Option (Fin n → ℤ))
    (weights : Option (Fin n → ℚ)) :
    Except PyError ((Fin p → ℚ) × (Fin p → ℚ) × (Fin p → ℚ) × (Fin n → ℚ)) :=
  let X := whitenX sq weights x
  let Y := whitenY sq weights y
  let b := pinv X *ᵥ Y
  let res := Y - X *ᵥ b
  match robust with
  | some r =>
    (robustEstimator sq pinv2 res X r nLags cluster).map
      fun se => (b, se, fun i => b i / se i, res)
  | none =>
    let sigma := sq (res ⬝ᵥ res / ((n : ℚ) - (p : ℚ)))
    let se := fun i => sq (pinv2 (Xᵀ * X) i i) * sigma
    .ok (b, se, fun i => b i / se i, res)

/-- The `all_stats=False, resid_only=False` path of `_ols`: only the
pseudo-inverse coefficients of the (optionally whitened) regression. -/
def olsCoefs (sq : ℚ → ℚ)
    (pinv : Matrix (Fin n) (Fin p) ℚ → Matrix (Fin p) (Fin n) ℚ)
    (x : Matrix (Fin n) (Fin p) ℚ) (y : Fin n → ℚ)
    (weights : Option (Fin n → ℚ)) : Fin p → ℚ :=
  pinv (whitenX sq weights x) *ᵥ whitenY sq weights y

/-- Shallow embedding of `_chunk_perm_ols` (`utils.py` lines 243-251):
shuffle the response rows with the seed-determined reordering `σ`
(`y.sample(frac=1, replace=False, random_state=seed)` draws a
permutation of all rows, so `σ` is bijective), refit with the design
unchanged, and return the list of t statistics. -/
def chunkPermOls (sq : ℚ → ℚ)
    (pinv : Matrix (Fin n) (Fin p) ℚ → Matrix (Fin p) (Fin n) ℚ)
    (pinv2 : Matrix (Fin p) (Fin p) ℚ → Matrix (Fin p) (Fin p) ℚ)
    (x : Matrix (Fin n) (Fin p) ℚ) (y : Fin n → ℚ)
    (robust : Option String) (nLags : ℕ) (cluster : Option (Fin n → ℤ))
    (weights : Option (Fin n → ℚ)) (σ : Fin n → Fin n) :
    Except PyError (List ℚ) :=
  (olsAllStats sq pinv pinv2 x (fun i => y (σ i)) robust nLags cluster weights).map
    fun r => List.ofFn r.2.2.1

/-- Shallow embedding of `_chunk_boot_ols_coefs` (`utils.py` lines
265-275): draw rows of the whole data set with replacement using the
seed-determined index map `s` (`dat.sample(frac=1, replace=True,
random_state=seed)`, same size as the data, `s` arbitrary), rebuild the
design and response from the drawn rows (patsy `dmatrices` is row-wise),
and return the list of OLS coefficients (`all_stats=False`,
`robust=None`, original `weights` passed through). -/
def chunkBootOlsCoefs (sq : ℚ → ℚ)
    (pinv : Matrix (Fin n) (Fin p) ℚ → Matrix (Fin p) (Fin n) ℚ)
    (X : Matrix (Fin n) (Fin p) ℚ) (Y : Fin n → ℚ)
    (weights : Option (Fin n → ℚ)) (s : Fin n → Fin n) : List ℚ :=
  List.ofFn (olsCoefs sq pinv (Matrix.of fun i j => X (s i) j) (fun i => Y (s i)) weights)

/-- Shallow embedding of `_perm_find` (`utils.py` lines 361-365): the
two-tailed permutation p-value
`(#(|arr i| ≥ |x|) + 1) / (len arr + 1)`. -/
def permFind (arr : List ℚ) (x : ℚ) : ℚ :=
  (((arr.countP fun a => decide (|x| ≤ |a|)) : ℚ) + 1) / ((arr.length : ℚ) + 1)

/-- Mean of a list, modelling `np.mean`. -/
def listMean (xs : List ℚ) : ℚ := xs.sum / (xs.length : ℚ)

/-- Sample standard deviation with `ddof=1`, modelling
`np.std(x, ddof=1)`, with `sq` for `np.sqrt`. -/
def listStd (sq : ℚ → ℚ) (xs : List ℚ) : ℚ :=
  sq (((xs.map fun v => (v - listMean xs) ^ 2).sum) / ((xs.length : ℚ) - 1))

/-- Shallow embedding of `_permute_sign` (`utils.py` lines 254-262).
`signs` is the seed-determined ±1 vector drawn by
`random_state.choice([1, -1], len(data))`.  Only the strings "ceof" and
"t-stat" are handled by the if/elif chain; any other value of
`return_stat` (including the default "mean") falls through and the
Python function returns `None`. -/
def permuteSign (sq : ℚ → ℚ) (data signs : List ℚ)
    (returnStat : String) : Option ℚ :=
  let newDat := data.zipWith (· * ·) signs
  if returnStat = "ceof" then some (listMean newDat)
  else if returnStat = "t-stat" then
    some (listMean newDat / (listStd sq newDat / sq ((newDat.length : ℚ))))
  else none

/-- A pandas data frame as used by the coefficient-table code of
`Lmer.fit`: an ordered list of named columns of rationals. -/
abbrev DF : Type := List (String × List ℚ)

/-- Positional column renaming, `df.columns = names`. -/
def setCols (names : List String) (df : DF) : DF :=
  names.zip (df.map Prod.snd)

/-- Column lookup `df[nm]` (first column with that name). -/
def getCol (df : DF) (nm : String) : List ℚ :=
  (((df.find? fun c => c.1 == nm).map Prod.snd).getD [])

/-- Membership test `nm in df.columns`. -/
def hasCol (df : DF) (nm : String) : Bool :=
  df.any fun c => c.1 == nm

/-- Label-based reordering `df[[names]]`. -/
def selectCols (names : List String) (df : DF) : DF :=
  names.map fun nm => (nm, getCol df nm)

/-- Column assignment `df[nm] = vals`: replaces the values of an existing
column in place, otherwise appends a new column at the end. -/
def assignCol (df : DF) (nm : String) (vals : List ℚ) : DF :=
  if hasCol df nm then df.map fun c => if c.1 == nm then (nm, vals) else c
  else df ++ [(nm, vals)]

/-- Label renaming `df.rename(columns=m)` for the association list `m`. -/
def renameCols (m : List (String × String)) (df : DF) : DF :=
  df.map fun c => ((((m.find? fun r => r.1 == c.1).map Prod.snd).getD c.1), c.2)

/-- Names assigned positionally to a seven-column gaussian coefficient
summary in `Lmer.fit` (`Lmer.py` lines 469-477). -/
def gaussianNames7 : List String :=
  ["Estimate", "SE", "DF", "T-stat", "P-val", "2.5_ci", "97.5_ci"]

/-- Column order selected right afterwards (`Lmer.py` lines 478-480). -/
def gaussianOrder7 : List String :=
  ["Estimate", "2.5_ci", "97.5_ci", "SE", "DF", "T-stat", "P-val"]

/-- Rename/reorder block of `Lmer.fit` for a gaussian-family fit
(`Lmer.py` lines 467-513): positional rename followed by label reorder.
Seven engine columns is the usual gaussian case; five columns is the
case in which lmerTest returned no p-values, whose rename/reorder (and
warning) only run under the code's `if not permute` guard, with
`permute = 0` modelling a falsy (None or zero) permute argument. -/
def lmerFormatGaussian (permute : ℕ) (df : DF) : DF :=
  if df.length = 7 then selectCols gaussianOrder7 (setCols gaussianNames7 df)
  else if df.length = 5 ∧ permute = 0 then
    selectCols ["Estimate", "2.5_ci", "97.5_ci", "SE", "T-stat"]
      (setCols ["Estimate", "SE", "T-stat", "2.5_ci", "97.5_ci"] df)
  else df

/-- Shallow embedding of `_sig_stars` (`utils.py` lines 67-78). -/
def sigStars (val : ℚ) : String :=
  if 0 ≤ val ∧ val < 1 / 1000 then "***"
  else if 1 / 1000 ≤ val ∧ val < 1 / 100 then "**"
  else if 1 / 100 ≤ val ∧ val < 1 / 20 then "*"
  else if 1 / 20 ≤ val ∧ val < 1 / 10 then "."
  else ""

/-- Permutation-inference block of `Lmer.fit` (`Lmer.py` lines 579-608),
reached when fixed effects were estimated and `permute` is nonzero.
`perms` holds, for each of the `permute` refits on group-wise shuffled
data, the statistics extracted from the external engine refit by
`_return_t`; the refits themselves are engine calls and enter only
through this parameter.  For each coefficient row `c` the block computes
`_perm_find(perms[:, c], stat[c])`, overwrites the `P-val` column with
those values, sets every `DF` entry to `permute`, and renames `DF` to
`Num_perm` and `P-val` to `Perm-P-val` (gaussian models have a `DF`
column; other families append `Num_perm` instead). -/
def lmerPermuteBlock (family : String) (permute : ℕ)
    (perms : List (List ℚ)) (df : DF) : DF :=
  if permute ≠ 0 then
    let statCol :=
      if family ∈ ["gaussian", "gamma", "inverse_gaussian"] then "T-stat"
      else "Z-stat"
    let stats := getCol df statCol
    let pvals := (List.range stats.length).map fun c =>
      permFind (perms.map fun row => row.getD c 0) (stats.getD c 0)
    let df1 := assignCol df "P-val" pvals
    if hasCol df1 "DF" then
      renameCols [("DF", "Num_perm"), ("P-val", "Perm-P-val")]
        (assignCol df1 "DF" (List.replicate stats.length (permute : ℚ)))
    else
      renameCols [("P-val", "Perm-P-val")]
        (assignCol df1 "Num_perm" (List.replicate stats.length (permute : ℚ)))
  else df

/-- Computable model of `np.linalg.inv` on square rational matrices:
the nonsingular inverse `det⁻¹ • adjugate`, which agrees with Mathlib's
`A⁻¹` over a field (and is meaningful precisely on the invertible inputs
`np.linalg.inv` accepts). -/
def npinv {k : ℕ} (A : Matrix (Fin k) (Fin k) ℚ) : Matrix (Fin k) (Fin k) ℚ :=
  (A.det)⁻¹ • A.adjugate

/-- The square matrix built inside `con2R` (`utils.py` lines 484-485):
the constant intercept row `1/k` stacked on top of the user contrasts,
for `k = m + 1` factor levels. -/
def conStack {m : ℕ} (arr : Matrix (Fin m) (Fin (m + 1)) ℚ) :
    Matrix (Fin (m + 1)) (Fin (m + 1)) ℚ :=
  Matrix.of (Fin.cons (fun _ => 1 / ((m : ℚ) + 1)) fun i => arr i)

/-- Shallow embedding of `con2R` (`utils.py` lines 473-487): invert the
stacked matrix and drop its first column. -/
def con2R {m : ℕ} (arr : Matrix (Fin m) (Fin (m + 1)) ℚ) :
    Matrix (Fin (m + 1)) (Fin m) ℚ :=
  Matrix.of fun i j => npinv (conStack arr) i j.succ

/-- Shallow embedding of `R2con` (`utils.py` lines 490-504): prepend a
column of ones and invert. -/
def R2con {m : ℕ} (arr : Matrix (Fin (m + 1)) (Fin m) ℚ) :
    Matrix (Fin (m + 1)) (Fin (m + 1)) ℚ :=
  npinv (Matrix.of fun i => Fin.cons 1 fun j => arr i j)

/-- C1, counterexample: the estimator name "cluster" lies outside the five
sandwich weightings hc0, hc1, hc2, hc3, hac documented for
`_robust_estimator`, yet a call with it does not fail the assertion: at
a non-degenerate input (two observations, one predictor, two distinct
cluster ids, so neither Python int division hits a zero denominator) it
returns normally. -/
theorem robust_estimator_five_counterexample :
    isAssertionFailure
      (robustEstimator (n := 2) (p := 1) (fun q => q)
        (fun _ => Matrix.of fun _ _ => (1 : ℚ))
        (fun _ => 0) (Matrix.of fun _ _ => (1 : ℚ)) ("cluster") 1
        (some fun i => (i.val : ℤ))) = false ∧
    isOkResult
      (robustEstimator (n := 2) (p := 1) (fun q => q)
        (fun _ => Matrix.of fun _ _ => (1 : ℚ))
        (fun _ => 0) (Matrix.of fun _ _ => (1 : ℚ)) ("cluster") 1
        (some fun i => (i.val : ℤ))) = true := by
  exact ⟨by decide, by decide⟩

/-- C1, amended: `_robust_estimator` fails its assertion exactly when the
`robust_estimator` argument is outside the six accepted names hc0, hc1,
hc2, hc3, hac, cluster; every accepted name gets past the assertion
before any computation. -/
theorem robust_estimator_assert_accepts_six (sq : ℚ → ℚ)
    (pinv2 : Matrix (Fin p) (Fin p) ℚ → Matrix (Fin p) (Fin p) ℚ)
    (vals : Fin n → ℚ) (X : Matrix (Fin n) (Fin p) ℚ) (est : String)
    (nLags : ℕ) (cluster : Option (Fin n → ℤ)) :
    isAssertionFailure (robustEstimator sq pinv2 vals X est nLags cluster) = true
      ↔ est ∉ allowedEstimators := by
  unfold robustEstimator
  by_cases hmem : est ∈ allowedEstimators
  · rw [if_pos hmem]
    simp only [hmem, not_true_eq_false, iff_false]
    split
    · rcases cluster with _ | c
      · simp [isAssertionFailure]
      · dsimp only
        split <;> simp [isAssertionFailure]
    · split <;> simp [isAssertionFailure]
  · rw [if_neg hmem]
    simp [isAssertionFailure, hmem]

/-- C6: with `robust_estimator = "cluster"`, `_robust_estimator` raises
the `ValueError` asking for a cluster-id column exactly when `cluster`
is `None`; a call with a non-None cluster array never raises that
`ValueError`: it raises `ZeroDivisionError` precisely when the int
divisions of `utils.py` lines 132-133 hit a zero denominator (a single
distinct cluster id, or `n = p`), and otherwise returns normally. -/
theorem cluster_estimator_requires_cluster_ids (sq : ℚ → ℚ)
    (pinv2 : Matrix (Fin p) (Fin p) ℚ → Matrix (Fin p) (Fin p) ℚ)
    (vals : Fin n → ℚ) (X : Matrix (Fin n) (Fin p) ℚ) (nLags : ℕ) :
    robustEstimator sq pinv2 vals X ("cluster") nLags none =
      .error (.valueError ("data column identifying clusters must be provided")) ∧
    (∀ c : Fin n → ℤ, ∀ msg : String,
      robustEstimator sq pinv2 vals X ("cluster") nLags (some c) ≠
        .error (.valueError msg)) ∧
    (∀ c : Fin n → ℤ, (Finset.image c Finset.univ).card = 1 ∨ n = p →
      robustEstimator sq pinv2 vals X ("cluster") nLags (some c) =
        .error .zeroDivisionError) ∧
    (∀ c : Fin n → ℤ, (Finset.image c Finset.univ).card ≠ 1 → n ≠ p →
      isOkResult (robustEstimator sq pinv2 vals X ("cluster") nLags (some c)) = true) := by
  have hsome : ∀ c : Fin n → ℤ,
      robustEstimator sq pinv2 vals X ("cluster") nLags (some c) =
        if (Finset.image c Finset.univ).card = 1 ∨ n = p then
          .error .zeroDivisionError
        else
          .ok fun j => sq ((pinv2 (Xᵀ * X) * clusterMeat vals X c * pinv2 (Xᵀ * X)) j j) :=
    fun c => rfl
  refine ⟨rfl, ?_, ?_, ?_⟩
  · intro c msg
    rw [hsome c]
    split <;> simp
  · intro c hg
    rw [hsome c, if_pos hg]
  · intro c h1 h2
    rw [hsome c, if_neg (by simp [h1, h2])]
    rfl

/-- Witness for C6 at two observations, one predictor and two distinct
cluster ids, where the normal-return conjunct's side conditions hold. -/
theorem cluster_estimator_requires_cluster_ids_witness :
    ((Finset.image (fun i : Fin 2 => (i.val : ℤ)) Finset.univ).card ≠ 1) ∧
    ((2 : ℕ) ≠ 1) ∧
    isOkResult
      (robustEstimator (n := 2) (p := 1) (fun q => q)
        (fun _ => Matrix.of fun _ _ => (2 : ℚ))
        (fun _ => 1) (Matrix.of fun _ _ => (1 : ℚ)) ("cluster") 1
        (some fun i => (i.val : ℤ))) = true :=
  ⟨by decide, by decide,
    (cluster_estimator_requires_cluster_ids (n := 2) (p := 1) (fun q => q)
        (fun _ => Matrix.of fun _ _ => (2 : ℚ))
        (fun _ => 1) (Matrix.of fun _ _ => (1 : ℚ)) 1).2.2.2
      (fun i => (i.val : ℤ)) (by decide) (by decide)⟩

/-- C8: for a non-empty list, `_perm_find` returns
`(#(|arr i| ≥ |x|) + 1) / (len arr + 1)`, which is strictly positive and
at most one. -/
theorem perm_find_formula_and_bounds (arr : List ℚ) (x : ℚ) (_h : arr ≠ []) :
    permFind arr x =
      (((arr.countP fun a => decide (|x| ≤ |a|)) : ℚ) + 1) / ((arr.length : ℚ) + 1) ∧
    0 < permFind arr x ∧ permFind arr x ≤ 1 := by
  refine ⟨rfl, ?_, ?_⟩
  · apply div_pos <;> positivity
  · rw [permFind, div_le_one (by positivity)]
    have hle := List.countP_le_length (p := fun a => decide (|x| ≤ |a|)) (l := arr)
    have : ((arr.countP fun a => decide (|x| ≤ |a|)) : ℚ) ≤ (arr.length : ℚ) := by
      exact_mod_cast hle
    linarith

/-- Witness for C8 at the concrete input `arr = [1]`, `x = 0`. -/
theorem perm_find_formula_and_bounds_witness :
    ([(1 : ℚ)] ≠ []) ∧ 0 < permFind [(1 : ℚ)] 0 ∧ permFind [(1 : ℚ)] 0 ≤ 1 :=
  ⟨by decide, (perm_find_formula_and_bounds [(1 : ℚ)] 0 (by decide)).2⟩

/-- C9: `_permute_sign` with its default `return_stat="mean"` returns
`None`; the sign-flipped mean is produced only by the misspelled value
"ceof", and every value other than "ceof" and "t-stat" also yields
`None`. -/
theorem permute_sign_mean_returns_none (sq : ℚ → ℚ) (data signs : List ℚ) :
    permuteSign sq data signs ("mean") = none ∧
    permuteSign sq data signs ("ceof") =
      some (listMean (data.zipWith (· * ·) signs)) ∧
    ∀ rs : String, rs ≠ "ceof" → rs ≠ "t-stat" →
      permuteSign sq data signs rs = none := by
  refine ⟨rfl, rfl, ?_⟩
  intro rs h1 h2
  unfold permuteSign
  rw [if_neg h1, if_neg h2]

/-- Witness for C9 at the concrete non-handled value "zzz". -/
theorem permute_sign_mean_returns_none_witness :
    permuteSign (fun q => q) [(1 : ℚ)] [1] ("zzz") = none ∧ ("zzz" : String) ≠ "ceof" :=
  ⟨(permute_sign_mean_returns_none (fun q => q) [1] [1]).2.2 "zzz" (by decide) (by decide),
    by decide⟩

/-- Meat matrix as worded by the claim for hc0: `Xᵀ · diag(resid²) · X`. -/
def specMeatHC0 (vals : Fin n → ℚ) (X : Matrix (Fin n) (Fin p) ℚ) :
    Matrix (Fin p) (Fin p) ℚ :=
  Xᵀ * Matrix.diagonal (fun i => vals i ^ 2) * X

/-- Meat matrix as worded by the claim for hc1: the hc0 meat scaled by
`n / (n - p)`. -/
def specMeatHC1 (vals : Fin n → ℚ) (X : Matrix (Fin n) (Fin p) ℚ) :
    Matrix (Fin p) (Fin p) ℚ :=
  ((n : ℚ) / ((n : ℚ) - (p : ℚ))) • specMeatHC0 vals X

/-- Meat matrix as worded by the claim for hc2: squared residuals divided
by `1 - leverage`. -/
def specMeatHC2 (pinv2 : Matrix (Fin p) (Fin p) ℚ → Matrix (Fin p) (Fin p) ℚ)
    (vals : Fin n → ℚ) (X : Matrix (Fin n) (Fin p) ℚ) :
    Matrix (Fin p) (Fin p) ℚ :=
  Xᵀ * Matrix.diagonal (fun i => vals i ^ 2 / (1 - leverage (pinv2 (Xᵀ * X)) X i)) * X

/-- Meat matrix as worded by the claim for hc3: squared residuals divided
by `(1 - leverage)²`. -/
def specMeatHC3 (pinv2 : Matrix (Fin p) (Fin p) ℚ → Matrix (Fin p) (Fin p) ℚ)
    (vals : Fin n → ℚ) (X : Matrix (Fin n) (Fin p) ℚ) :
    Matrix (Fin p) (Fin p) ℚ :=
  Xᵀ * Matrix.diagonal (fun i => vals i ^ 2 / (1 - leverage (pinv2 (Xᵀ * X)) X i) ^ 2) * X

/-- The numpy broadcast `diag(d) / e` (dividing column `j` by `e j`)
equals the diagonal matrix of the pointwise quotients. -/
theorem of_diagonal_div_col (d e : Fin n → ℚ) :
    (Matrix.of fun i j => Matrix.diagonal d i j / e j) =
      Matrix.diagonal fun i => d i / e i := by
  ext i j
  by_cases hij : i = j
  · subst hij; simp
  · simp [Matrix.diagonal_apply_ne _ hij]

/-- C3: for the four hc weightings, `_robust_estimator` returns the
elementwise square root (`sq` modelling `np.sqrt`) of the diagonal of
`bread · meat · bread`, with `bread = pinv(Xᵀ X)` and the meat given by
the textbook formulas `specMeatHC0`-`specMeatHC3`. -/
theorem robust_estimator_hc_meats (sq : ℚ → ℚ)
    (pinv2 : Matrix (Fin p) (Fin p) ℚ → Matrix (Fin p) (Fin p) ℚ)
    (vals : Fin n → ℚ) (X : Matrix (Fin n) (Fin p) ℚ) (nLags : ℕ)
    (cluster : Option (Fin n → ℤ)) :
    (robustEstimator sq pinv2 vals X ("hc0") nLags cluster =
      .ok fun j => sq ((pinv2 (Xᵀ * X) * specMeatHC0 vals X * pinv2 (Xᵀ * X)) j j)) ∧
    (robustEstimator sq pinv2 vals X ("hc1") nLags cluster =
      .ok fun j => sq ((pinv2 (Xᵀ * X) * specMeatHC1 vals X * pinv2 (Xᵀ * X)) j j)) ∧
    (robustEstimator sq pinv2 vals X ("hc2") nLags cluster =
      .ok fun j => sq ((pinv2 (Xᵀ * X) * specMeatHC2 pinv2 vals X * pinv2 (Xᵀ * X)) j j)) ∧
    (robustEstimator sq pinv2 vals X ("hc3") nLags cluster =
      .ok fun j => sq ((pinv2 (Xᵀ * X) * specMeatHC3 pinv2 vals X * pinv2 (Xᵀ * X)) j j)) := by
  refine ⟨rfl, ?_, ?_, ?_⟩
  · have h1 : robustEstimator sq pinv2 vals X ("hc1") nLags cluster =
        .ok fun j => sq ((pinv2 (Xᵀ * X) *
          (Xᵀ * (((n : ℚ) / ((n : ℚ) - (p : ℚ))) • Matrix.diagonal fun i => vals i ^ 2) * X) *
          pinv2 (Xᵀ * X)) j j) := rfl
    rw [h1, show Xᵀ * (((n : ℚ) / ((n : ℚ) - (p : ℚ))) • Matrix.diagonal fun i => vals i ^ 2) * X
        = specMeatHC1 vals X by
      rw [specMeatHC1, specMeatHC0, Matrix.mul_smul, Matrix.smul_mul]]
  · have h2 : robustEstimator sq pinv2 vals X ("hc2") nLags cluster =
        .ok fun j => sq ((pinv2 (Xᵀ * X) *
          (Xᵀ * ((Matrix.of fun i j => Matrix.diagonal (fun i => vals i ^ 2) i j /
            (1 - leverage (pinv2 (Xᵀ * X)) X j)) : Matrix (Fin n) (Fin n) ℚ) * X) *
          pinv2 (Xᵀ * X)) j j) := rfl
    rw [h2, of_diagonal_div_col]
    rfl
  · have h3 : robustEstimator sq pinv2 vals X ("hc3") nLags cluster =
        .ok fun j => sq ((pinv2 (Xᵀ * X) *
          (Xᵀ * ((Matrix.of fun i j => Matrix.diagonal (fun i => vals i ^ 2) i j /
            (1 - leverage (pinv2 (Xᵀ * X)) X j) ^ 2) : Matrix (Fin n) (Fin n) ℚ) * X) *
          pinv2 (Xᵀ * X)) j j) := rfl
    rw [h3, of_diagonal_div_col]
    rfl

/-- C2: whenever the `all_stats=True` path of `_ols` returns
`(b, se, t, res)`, the coefficients are the pseudo-inverse of the
(optionally whitened) design applied to the (optionally whitened)
response, the residuals are `Y - X·b`, and the t statistics are `b`
divided elementwise by the standard errors. -/
theorem ols_pinv_coefs_resid_tstats (sq : ℚ → ℚ)
    (pinv : Matrix (Fin n) (Fin p) ℚ → Matrix (Fin p) (Fin n) ℚ)
    (pinv2 : Matrix (Fin p) (Fin p) ℚ → Matrix (Fin p) (Fin p) ℚ)
    (x : Matrix (Fin n) (Fin p) ℚ) (y : Fin n → ℚ)
    (robust : Option String) (nLags : ℕ) (cluster : Option (Fin n → ℤ))
    (weights : Option (Fin n → ℚ))
    (b se t res : _)
    (h : olsAllStats sq pinv pinv2 x y robust nLags cluster weights =
      .ok (b, se, t, res)) :
    b = pinv (whitenX sq weights x) *ᵥ whitenY sq weights y ∧
    res = whitenY sq weights y - whitenX sq weights x *ᵥ b ∧
    t = fun i => b i / se i := by
  unfold olsAllStats at h
  cases robust with
  | none =>
    simp only [Except.ok.injEq, Prod.mk.injEq] at h
    obtain ⟨hb, hse, ht, hres⟩ := h
    exact ⟨hb.symm, by rw [← hres, ← hb], by rw [← ht, ← hb, ← hse]⟩
  | some r =>
    dsimp only at h
    rcases hr : robustEstimator sq pinv2
        (whitenY sq weights y - whitenX sq weights x *ᵥ (pinv (whitenX sq weights x) *ᵥ whitenY sq weights y))
        (whitenX sq weights x) r nLags cluster with e | se0
    · rw [hr] at h
      simp [Except.map] at h
    · rw [hr] at h
      simp only [Except.map, Except.ok.injEq, Prod.mk.injEq] at h
      obtain ⟨hb, hse, ht, hres⟩ := h
      exact ⟨hb.symm, by rw [← hres, ← hb], by rw [← ht, ← hb, ← hse]⟩

/-- The concrete unit design matrix used by the witnesses below. -/
def unitMat1 : Matrix (Fin 1) (Fin 1) ℚ := Matrix.of fun _ _ => 1

/-- A concrete stand-in for `np.linalg.pinv` used by the witnesses
below: it returns the unit matrix on every input. -/
def unitPinv1 : Matrix (Fin 1) (Fin 1) ℚ → Matrix (Fin 1) (Fin 1) ℚ := fun _ => unitMat1

/-- Witness for C2 at a concrete one-observation, one-predictor call
with unit design, response 2, no weights and parametric standard
errors. -/
theorem ols_pinv_coefs_resid_tstats_witness :
    (fun _ : Fin 1 => (2 : ℚ)) =
      unitPinv1 (whitenX (fun q => q) none unitMat1) *ᵥ
        whitenY (fun q => q) none (fun _ => (2 : ℚ)) ∧
    (fun _ : Fin 1 => (0 : ℚ)) =
      whitenY (fun q => q) none (fun _ => (2 : ℚ)) -
        whitenX (fun q => q) none unitMat1 *ᵥ (fun _ => (2 : ℚ)) ∧
    (fun _ : Fin 1 => (0 : ℚ)) =
      fun i => (fun _ : Fin 1 => (2 : ℚ)) i / (fun _ : Fin 1 => (0 : ℚ)) i :=
  ols_pinv_coefs_resid_tstats (fun q => q) unitPinv1 unitPinv1 unitMat1
    (fun _ => (2 : ℚ)) none 1 none none
    (fun _ => (2 : ℚ)) (fun _ => (0 : ℚ)) (fun _ => (0 : ℚ)) (fun _ => (0 : ℚ))
    (by
      unfold olsAllStats whitenX whitenY unitPinv1 unitMat1
      dsimp only
      norm_num [Matrix.mulVec, Matrix.mul_apply, dotProduct, Fin.sum_univ_one,
        Prod.ext_iff, funext_iff])

/-- C4: the two resampling chunks differ exactly in replacement.
`_chunk_perm_ols` recomputes the OLS t-statistics after reordering the
response rows by the seed-drawn map `σ`, which (being without
replacement over the full data) is a bijection, so the shuffled response
is a rearrangement of the original values; `_chunk_boot_ols_coefs`
recomputes the OLS coefficients after drawing rows of the whole data set
through an arbitrary (with-replacement) index map `s` of the same
length. -/
theorem chunk_perm_vs_boot_replacement (sq : ℚ → ℚ)
    (pinv : Matrix (Fin n) (Fin p) ℚ → Matrix (Fin p) (Fin n) ℚ)
    (pinv2 : Matrix (Fin p) (Fin p) ℚ → Matrix (Fin p) (Fin p) ℚ)
    (x : Matrix (Fin n) (Fin p) ℚ) (y : Fin n → ℚ)
    (robust : Option String) (nLags : ℕ) (cluster : Option (Fin n → ℤ))
    (weights : Option (Fin n → ℚ)) (σ s : Fin n → Fin n)
    (hσ : Function.Bijective σ) :
    chunkPermOls sq pinv pinv2 x y robust nLags cluster weights σ =
      (olsAllStats sq pinv pinv2 x (fun i => y (σ i)) robust nLags cluster weights).map
        (fun r => List.ofFn r.2.2.1) ∧
    (Finset.univ.val.map fun i => y (σ i)) = Finset.univ.val.map y ∧
    chunkBootOlsCoefs sq pinv x y weights s =
      List.ofFn (olsCoefs sq pinv (Matrix.of fun i j => x (s i) j)
        (fun i => y (s i)) weights) := by
  refine ⟨rfl, ?_, rfl⟩
  have h1 : Finset.univ.val.map σ = Finset.univ.val :=
    (Multiset.bijective_iff_map_univ_eq_univ σ).mp hσ
  calc Finset.univ.val.map (fun i => y (σ i))
      = (Finset.univ.val.map σ).map y := by rw [Multiset.map_map]; rfl
    _ = Finset.univ.val.map y := by rw [h1]

/-- Witness for C4 with the identity permutation and identity draw on a
one-observation data set. -/
theorem chunk_perm_vs_boot_replacement_witness :
    chunkPermOls (fun q => q) unitPinv1 unitPinv1 unitMat1 (fun _ => (2 : ℚ))
        none 1 none none (fun i => i) =
      (olsAllStats (fun q => q) unitPinv1 unitPinv1 unitMat1 (fun _ => (2 : ℚ))
          none 1 none none).map (fun r => List.ofFn r.2.2.1) ∧
    (Finset.univ.val.map fun _ : Fin 1 => (2 : ℚ)) =
      Finset.univ.val.map (fun _ : Fin 1 => (2 : ℚ)) ∧
    chunkBootOlsCoefs (fun q => q) unitPinv1 unitMat1 (fun _ => (2 : ℚ)) none
        (fun i => i) =
      List.ofFn (olsCoefs (fun q => q) unitPinv1
        (Matrix.of fun i j => unitMat1 i j) (fun _ => (2 : ℚ)) none) :=
  chunk_perm_vs_boot_replacement (fun q => q) unitPinv1 unitPinv1 unitMat1
    (fun _ => (2 : ℚ)) none 1 none none (fun i => i) (fun i => i)
    Function.bijective_id

/-- C5: for a gaussian fit whose engine coefficient summary has seven
columns, the rename/reorder block of `Lmer.fit` renames the columns
positionally to Estimate, SE, DF, T-stat, P-val, 2.5_ci, 97.5_ci and
reorders the table to exactly Estimate, 2.5_ci, 97.5_ci, SE, DF, T-stat,
P-val, carrying each original column's data with its new name. -/
theorem lmer_gaussian_coef_rename_reorder (permute : ℕ)
    (n0 n1 n2 n3 n4 n5 n6 : String) (c0 c1 c2 c3 c4 c5 c6 : List ℚ) :
    lmerFormatGaussian permute
        [(n0, c0), (n1, c1), (n2, c2), (n3, c3), (n4, c4), (n5, c5), (n6, c6)] =
      [("Estimate", c0), ("2.5_ci", c5), ("97.5_ci", c6), ("SE", c1),
        ("DF", c2), ("T-stat", c3), ("P-val", c4)] := by
  rfl

/-- C7: with a nonzero permutation count and a gaussian coefficient
table, the permutation block of `Lmer.fit` replaces the parametric P-val
column by a Perm-P-val column whose entries are `_perm_find` of the
permuted statistics against the fitted t statistics, turns the DF column
into a Num_perm column every entry of which is the permutation count,
and leaves no P-val column behind. -/
theorem lmer_permute_pvals (permute : ℕ) (hp : permute ≠ 0)
    (perms : List (List ℚ)) (e lo hi se d t pv : List ℚ) :
    lmerPermuteBlock ("gaussian") permute perms
        [("Estimate", e), ("2.5_ci", lo), ("97.5_ci", hi), ("SE", se),
          ("DF", d), ("T-stat", t), ("P-val", pv)] =
      [("Estimate", e), ("2.5_ci", lo), ("97.5_ci", hi), ("SE", se),
        ("Num_perm", List.replicate t.length (permute : ℚ)), ("T-stat", t),
        ("Perm-P-val", (List.range t.length).map fun c =>
          permFind (perms.map fun row => row.getD c 0) (t.getD c 0))] ∧
    hasCol (lmerPermuteBlock ("gaussian") permute perms
        [("Estimate", e), ("2.5_ci", lo), ("97.5_ci", hi), ("SE", se),
          ("DF", d), ("T-stat", t), ("P-val", pv)]) ("P-val") = false ∧
    ∀ v ∈ getCol (lmerPermuteBlock ("gaussian") permute perms
        [("Estimate", e), ("2.5_ci", lo), ("97.5_ci", hi), ("SE", se),
          ("DF", d), ("T-stat", t), ("P-val", pv)]) ("Num_perm"),
      v = (permute : ℚ) := by
  have hblock : lmerPermuteBlock ("gaussian") permute perms
      [("Estimate", e), ("2.5_ci", lo), ("97.5_ci", hi), ("SE", se),
        ("DF", d), ("T-stat", t), ("P-val", pv)] =
      [("Estimate", e), ("2.5_ci", lo), ("97.5_ci", hi), ("SE", se),
        ("Num_perm", List.replicate t.length (permute : ℚ)), ("T-stat", t),
        ("Perm-P-val", (List.range t.length).map fun c =>
          permFind (perms.map fun row => row.getD c 0) (t.getD c 0))] := by
    unfold lmerPermuteBlock
    rw [if_pos hp]
    rfl
  refine ⟨hblock, ?_, ?_⟩
  · rw [hblock]
    rfl
  · rw [hblock]
    intro v hv
    have hg : getCol
        [("Estimate", e), ("2.5_ci", lo), ("97.5_ci", hi), ("SE", se),
          ("Num_perm", List.replicate t.length (permute : ℚ)), ("T-stat", t),
          ("Perm-P-val", (List.range t.length).map fun c =>
            permFind (perms.map fun row => row.getD c 0) (t.getD c 0))]
        ("Num_perm") = List.replicate t.length (permute : ℚ) := rfl
    rw [hg] at hv
    exact List.eq_of_mem_replicate hv

/-- Witness for C7 with three permutations, a single coefficient row and
a concrete table. -/
theorem lmer_permute_pvals_witness :
    lmerPermuteBlock ("gaussian") 3 [[(2 : ℚ)]]
        [("Estimate", []), ("2.5_ci", []), ("97.5_ci", []), ("SE", []),
          ("DF", [(5 : ℚ)]), ("T-stat", [(1 : ℚ)]), ("P-val", [(1 : ℚ)])] =
      [("Estimate", []), ("2.5_ci", []), ("97.5_ci", []), ("SE", []),
        ("Num_perm", List.replicate [(1 : ℚ)].length ((3 : ℕ) : ℚ)),
        ("T-stat", [(1 : ℚ)]),
        ("Perm-P-val", (List.range [(1 : ℚ)].length).map fun c =>
          permFind ([[(2 : ℚ)]].map fun row => row.getD c 0)
            ([(1 : ℚ)].getD c 0))] ∧
    hasCol (lmerPermuteBlock ("gaussian") 3 [[(2 : ℚ)]]
        [("Estimate", []), ("2.5_ci", []), ("97.5_ci", []), ("SE", []),
          ("DF", [(5 : ℚ)]), ("T-stat", [(1 : ℚ)]), ("P-val", [(1 : ℚ)])])
      ("P-val") = false :=
  ⟨(lmer_permute_pvals 3 (by decide) [[(2 : ℚ)]] [] [] [] [] [(5 : ℚ)]
      [(1 : ℚ)] [(1 : ℚ)]).1,
    (lmer_permute_pvals 3 (by decide) [[(2 : ℚ)]] [] [] [] [] [(5 : ℚ)]
      [(1 : ℚ)] [(1 : ℚ)]).2.1⟩

/-- The `np.linalg.inv` model agrees with Mathlib's nonsingular inverse
over the rationals. -/
theorem npinv_eq_inv {k : ℕ} (A : Matrix (Fin k) (Fin k) ℚ) : npinv A = A⁻¹ := by
  rw [npinv, Matrix.inv_def, Ring.inverse_eq_inv]

/-- C10: for a `(k-1) × k` contrast array whose rows sum to zero and
whose stacked matrix (constant `1/k` intercept row on top) is
invertible, `R2con (con2R arr)` recovers that stacked matrix exactly:
first row the constant `1/k` row, remaining rows the original
contrasts. -/
theorem con2R_R2con_roundtrip {m : ℕ} (arr : Matrix (Fin m) (Fin (m + 1)) ℚ)
    (hrows : ∀ i, ∑ j, arr i j = 0) (hdet : (conStack arr).det ≠ 0) :
    R2con (con2R arr) = conStack arr := by
  have hu : IsUnit (conStack arr).det := isUnit_iff_ne_zero.mpr hdet
  have hones : conStack arr *ᵥ (1 : Fin (m + 1) → ℚ) = Pi.single 0 1 := by
    rw [Matrix.mulVec_one]
    funext i
    refine Fin.cases ?_ ?_ i
    · rw [Pi.single_eq_same]
      have : ∀ j : Fin (m + 1), conStack arr 0 j = 1 / ((m : ℚ) + 1) := by
        intro j
        rfl
      rw [Finset.sum_congr rfl fun j _ => this j, Finset.sum_const,
        Finset.card_univ, Fintype.card_fin]
      rw [nsmul_eq_mul]
      field_simp
    · intro i
      rw [Pi.single_eq_of_ne (Fin.succ_ne_zero i)]
      have : ∀ j : Fin (m + 1), conStack arr i.succ j = arr i j := by
        intro j
        rfl
      rw [Finset.sum_congr rfl fun j _ => this j]
      exact hrows i
  have hcol : ∀ i, (conStack arr)⁻¹ i 0 = 1 := by
    intro i
    have h2 : (conStack arr)⁻¹ *ᵥ (conStack arr *ᵥ (1 : Fin (m + 1) → ℚ)) = 1 := by
      rw [Matrix.mulVec_mulVec, Matrix.nonsing_inv_mul (conStack arr) hu,
        Matrix.one_mulVec]
    rw [hones, Matrix.mulVec_single] at h2
    have h3 := congrFun h2 i
    simpa using h3
  have hmat : (Matrix.of fun i => Fin.cons 1 fun j => con2R arr i j) =
      (conStack arr)⁻¹ := by
    ext i j
    refine Fin.cases ?_ ?_ j
    · rw [show (Matrix.of fun i => Fin.cons (1 : ℚ) fun j => con2R arr i j) i 0 =
          (1 : ℚ) from rfl]
      exact (hcol i).symm
    · intro j
      rw [show (Matrix.of fun i => Fin.cons (1 : ℚ) fun j => con2R arr i j) i j.succ =
          npinv (conStack arr) i j.succ from rfl]
      rw [npinv_eq_inv]
  calc R2con (con2R arr)
      = npinv (Matrix.of fun i => Fin.cons 1 fun j => con2R arr i j) := rfl
    _ = npinv ((conStack arr)⁻¹) := by rw [hmat]
    _ = ((conStack arr)⁻¹)⁻¹ := npinv_eq_inv _
    _ = conStack arr := Matrix.nonsing_inv_nonsing_inv (conStack arr) hu

/-- Witness for C10 at the concrete contrast array `[[1, -1]]` for two
factor levels. -/
theorem con2R_R2con_roundtrip_witness :
    (∀ i, ∑ j, (Matrix.of ![![(1 : ℚ), -1]]) i j = 0) ∧
    (conStack (Matrix.of ![![(1 : ℚ), -1]])).det ≠ 0 ∧
    R2con (con2R (Matrix.of ![![(1 : ℚ), -1]])) =
      conStack (Matrix.of ![![(1 : ℚ), -1]]) := by
  have hr : ∀ i, ∑ j, (Matrix.of ![![(1 : ℚ), -1]]) i j = 0 := fun i => by
    simp [Fin.sum_univ_two]
  have hd : (conStack (Matrix.of ![![(1 : ℚ), -1]])).det ≠ 0 := by
    have hs : conStack (Matrix.of ![![(1 : ℚ), -1]]) =
        !![(1 / 2 : ℚ), 1 / 2; 1, -1] := by
      ext i j
      fin_cases i <;> fin_cases j <;>
        norm_num [conStack, Fin.cons_zero, Fin.cons_succ]
    rw [hs]
    show ¬ Matrix.det (!![(1 / 2 : ℚ), 1 / 2; 1, -1] : Matrix (Fin 2) (Fin 2) ℚ) = 0
    norm_num [Matrix.det_fin_two_of]
  exact ⟨hr, hd, con2R_R2con_roundtrip (Matrix.of ![![(1 : ℚ), -1]]) hr hd⟩

end Pymer4
